import Mathlib

/-!
Verification of the rewrite-rule layer of an equality-saturation engine
(`src/rewrite.rs`): rule construction via `RewriteBuilder`, the
`Rewrite.search` / `Rewrite.apply` protocol, side-condition evaluation
(`Condition.check`), and the application-limit safety valve.

The e-graph, the pattern matcher and the substitution mapping are external
collaborators of this layer; they are modelled abstractly, as a state type
`G` together with the operations this layer consumes (`GraphOps.union`,
`Pattern.search`, `Pattern.substFind`), each a pure state-passing function.
-/

namespace Egg

/-- Equivalence-class ids (`Id` in the source). -/
abbrev Id := Nat

/-- Modelled from the spec: an applier result (`AddResult`) carries the id of
a term now present in the graph, together with whether it was already there
(`add(term) -> (id, was_new)` in the external-interface section). Only the
`id` field is read by this layer. -/
structure AddResult where
  id : Id
  wasThere : Bool
  deriving Repr, DecidableEq

/-- Modelled from the spec: a substitution mapping (`WildMap`) binds each
pattern variable to one or more matched class ids. This layer only passes it
through to conditions and appliers. -/
structure WildMap where
  entries : List (String × List Id)
  deriving Repr, DecidableEq

/-- One search result (`SearchMatches`): the matched class id and the
sequence of substitution mappings that matched it. -/
structure SearchMatches where
  eclass : Id
  mappings : List WildMap
  deriving Repr, DecidableEq

/-- Modelled from the spec: the pattern collaborator, reduced to the two
operations this layer consumes: `search(graph)` producing matches, and
`instantiate_and_find(graph, mapping)` (`subst_and_find` in the source),
which materializes the instantiated term in the graph (a state effect) and
returns its canonical class id. -/
structure Pattern (G : Type) where
  search : G → List SearchMatches
  substFind : G → WildMap → Id × G

/-- A side condition: a pair of patterns whose instantiated canonical ids
must coincide for a mapping to be accepted. -/
structure Condition (G : Type) where
  lhs : Pattern G
  rhs : Pattern G

/-- Modelled from the spec: the `Applier` capability — given the graph and a
mapping, produce an ordered sequence of result ids, with graph-mutating side
effects permitted. -/
def Applier (G : Type) := G → WildMap → List AddResult × G

/-- Modelled from the spec: the graph operation consumed by `apply` —
`union(id, id) -> id` merges two classes and returns the new leader id. -/
structure GraphOps (G : Type) where
  union : G → Id → Id → Id × G

/-- An immutable rewrite rule (`Rewrite` in the source). -/
structure Rewrite (G : Type) where
  name : String
  patterns : List (Pattern G)
  appliers : List (Applier G)
  conditions : List (Condition G)
  application_limit : Nat

/-- The fluent accumulator for building a `Rewrite` (`RewriteBuilder`). -/
structure RewriteBuilder (G : Type) where
  name : String
  patterns : List (Pattern G)
  appliers : List (Applier G)
  conditions : List (Condition G)
  application_limit : Nat

variable {G : Type}

/-- `RewriteBuilder::new`: empty lists, application limit defaulted to
10,000. -/
def RewriteBuilder.new (name : String) : RewriteBuilder G :=
  ⟨name, [], [], [], 10000⟩

/-- `RewriteBuilder::with_pattern`. -/
def RewriteBuilder.with_pattern (b : RewriteBuilder G) (p : Pattern G) :
    RewriteBuilder G :=
  ⟨b.name, b.patterns ++ [p], b.appliers, b.conditions, b.application_limit⟩

/-- `RewriteBuilder::with_applier`. -/
def RewriteBuilder.with_applier (b : RewriteBuilder G) (a : Applier G) :
    RewriteBuilder G :=
  ⟨b.name, b.patterns, b.appliers ++ [a], b.conditions, b.application_limit⟩

/-- `RewriteBuilder::with_condition`. -/
def RewriteBuilder.with_condition (b : RewriteBuilder G) (c : Condition G) :
    RewriteBuilder G :=
  ⟨b.name, b.patterns, b.appliers, b.conditions ++ [c], b.application_limit⟩

/-- `RewriteBuilder::with_application_limit`: overrides the limit with the
supplied value, unvalidated. -/
def RewriteBuilder.with_application_limit (b : RewriteBuilder G) (n : Nat) :
    RewriteBuilder G :=
  ⟨b.name, b.patterns, b.appliers, b.conditions, n⟩

/-- The failure raised by `build` when validation fails. In the source the
two `assert_ne!` checks abort the call; fallible code is embedded as
`Except`. -/
inductive BuildError where
  | invalidRewrite
  deriving Repr, DecidableEq

/-- `RewriteBuilder::build`: checks `patterns` non-empty, then `appliers`
non-empty (the two `assert_ne!` lines), and otherwise returns the finished
`Rewrite` capturing the accumulated fields. -/
def RewriteBuilder.build (b : RewriteBuilder G) :
    Except BuildError (Rewrite G) :=
  if b.patterns.length = 0 then .error .invalidRewrite
  else if b.appliers.length = 0 then .error .invalidRewrite
  else .ok ⟨b.name, b.patterns, b.appliers, b.conditions, b.application_limit⟩

/-- `Condition::check`: instantiate `lhs` under the mapping (threading the
graph state), then `rhs`, and compare the two canonical ids. -/
def Condition.check (c : Condition G) (g : G) (m : WildMap) : Bool × G :=
  let l := c.lhs.substFind g m
  let r := c.rhs.substFind l.2 m
  (l.1 == r.1, r.2)

/-- `self.conditions.iter().all(|c| c.check(egraph, mapping))`: evaluate
conditions in list order, short-circuiting on the first failure; the graph
state reflects exactly the conditions actually evaluated. -/
def checkConditions (cs : List (Condition G)) (g : G) (m : WildMap) :
    Bool × G :=
  match cs with
  | [] => (true, g)
  | c :: rest =>
    let r := c.check g m
    if r.1 then checkConditions rest r.2 m else (false, r.2)

/-- The state threaded through the nested loops of `apply`: the accumulator
of leader ids, the warnings emitted so far (rule name and count), the graph,
and whether `break 'outer` fired. -/
structure LoopRes (G : Type) where
  acc : List Id
  warns : List (String × Nat)
  graph : G
  stop : Bool

/-- The innermost loop of `apply` (`for applied_root in applier.apply(..)`):
for each result id, union with the originating class and append the leader
when the id differs, then check the accumulator length against the limit and
`break 'outer` with a warning when it exceeds it. -/
def applyRoots (ops : GraphOps G) (name : String) (limit : Nat) (eclass : Id)
    (roots : List AddResult) (acc : List Id) (warns : List (String × Nat))
    (g : G) : LoopRes G :=
  match roots with
  | [] => ⟨acc, warns, g, false⟩
  | root :: rest =>
    let step : List Id × G :=
      if root.id ≠ eclass then
        let u := ops.union g eclass root.id
        (acc ++ [u.1], u.2)
      else (acc, g)
    if step.1.length > limit then
      ⟨step.1, warns ++ [(name, step.1.length)], step.2, true⟩
    else
      applyRoots ops name limit eclass rest step.1 warns step.2

/-- The `for applier in &self.appliers` loop: invoke each applier on the
current graph and mapping, process its results, and propagate
`break 'outer`. -/
def applyAppliers (ops : GraphOps G) (name : String) (limit : Nat)
    (eclass : Id) (appliers : List (Applier G)) (m : WildMap) (acc : List Id)
    (warns : List (String × Nat)) (g : G) : LoopRes G :=
  match appliers with
  | [] => ⟨acc, warns, g, false⟩
  | a :: rest =>
    let res := a g m
    let out := applyRoots ops name limit eclass res.1 acc warns res.2
    if out.stop then out
    else applyAppliers ops name limit eclass rest m out.acc out.warns
      out.graph

/-- The `for mapping in &ematch.mappings` loop: gate each mapping on the
conditions, run the appliers when they all hold, and propagate
`break 'outer`. -/
def applyMappings (ops : GraphOps G) (name : String) (limit : Nat)
    (eclass : Id) (conds : List (Condition G)) (appliers : List (Applier G))
    (maps : List WildMap) (acc : List Id) (warns : List (String × Nat))
    (g : G) : LoopRes G :=
  match maps with
  | [] => ⟨acc, warns, g, false⟩
  | m :: rest =>
    let ck := checkConditions conds g m
    if ck.1 then
      let out := applyAppliers ops name limit eclass appliers m acc warns
        ck.2
      if out.stop then out
      else applyMappings ops name limit eclass conds appliers rest out.acc
        out.warns out.graph
    else
      applyMappings ops name limit eclass conds appliers rest acc warns ck.2

/-- The `'outer: for ematch in ematches` loop. -/
def applyMatches (ops : GraphOps G) (name : String) (limit : Nat)
    (conds : List (Condition G)) (appliers : List (Applier G))
    (ems : List SearchMatches) (acc : List Id)
    (warns : List (String × Nat)) (g : G) : LoopRes G :=
  match ems with
  | [] => ⟨acc, warns, g, false⟩
  | em :: rest =>
    let out := applyMappings ops name limit em.eclass conds appliers
      em.mappings acc warns g
    if out.stop then out
    else applyMatches ops name limit conds appliers rest out.acc out.warns
      out.graph

/-- `Rewrite::apply`: run the nested loops starting from an empty
accumulator and return the accumulated leader ids, the warnings emitted, and
the final graph. -/
def Rewrite.apply (r : Rewrite G) (ops : GraphOps G) (g : G)
    (ems : List SearchMatches) : List Id × List (String × Nat) × G :=
  let out := applyMatches ops r.name r.application_limit r.conditions
    r.appliers ems [] [] g
  (out.acc, out.warns, out.graph)

/-- The `flat_map` of `Rewrite::search`, one pattern at a time. -/
def searchPatterns (ps : List (Pattern G)) (g : G) : List SearchMatches :=
  match ps with
  | [] => []
  | p :: rest => p.search g ++ searchPatterns rest g

/-- `Rewrite::search`: flatten the per-pattern search results in pattern
order. -/
def Rewrite.search (r : Rewrite G) (g : G) : List SearchMatches :=
  searchPatterns r.patterns g

/-- Total number of mappings across a list of search results. -/
def totalMappings (ems : List SearchMatches) : Nat :=
  (ems.map (fun em => em.mappings.length)).sum

/-! The `NL` ("no limit") variants below follow the spec's words to state
what an `apply` call "would otherwise" produce: the same recursion as
`apply`, with the application-limit check removed. They exist only to
compare against `Rewrite.apply`. -/

/-- The root loop of `apply` without the limit check. -/
def applyRootsNL (ops : GraphOps G) (eclass : Id) (roots : List AddResult)
    (acc : List Id) (g : G) : List Id × G :=
  match roots with
  | [] => (acc, g)
  | root :: rest =>
    let step : List Id × G :=
      if root.id ≠ eclass then
        let u := ops.union g eclass root.id
        (acc ++ [u.1], u.2)
      else (acc, g)
    applyRootsNL ops eclass rest step.1 step.2

/-- The applier loop of `apply` without the limit check. -/
def applyAppliersNL (ops : GraphOps G) (eclass : Id)
    (appliers : List (Applier G)) (m : WildMap) (acc : List Id) (g : G) :
    List Id × G :=
  match appliers with
  | [] => (acc, g)
  | a :: rest =>
    let res := a g m
    let out := applyRootsNL ops eclass res.1 acc res.2
    applyAppliersNL ops eclass rest m out.1 out.2

/-- The mapping loop of `apply` without the limit check. -/
def applyMappingsNL (ops : GraphOps G) (eclass : Id)
    (conds : List (Condition G)) (appliers : List (Applier G))
    (maps : List WildMap) (acc : List Id) (g : G) : List Id × G :=
  match maps with
  | [] => (acc, g)
  | m :: rest =>
    let ck := checkConditions conds g m
    if ck.1 then
      let out := applyAppliersNL ops eclass appliers m acc ck.2
      applyMappingsNL ops eclass conds appliers rest out.1 out.2
    else
      applyMappingsNL ops eclass conds appliers rest acc ck.2

/-- The match loop of `apply` without the limit check. -/
def applyMatchesNL (ops : GraphOps G) (conds : List (Condition G))
    (appliers : List (Applier G)) (ems : List SearchMatches)
    (acc : List Id) (g : G) : List Id × G :=
  match ems with
  | [] => (acc, g)
  | em :: rest =>
    let out := applyMappingsNL ops em.eclass conds appliers em.mappings acc
      g
    applyMatchesNL ops conds appliers rest out.1 out.2

/-- `Rewrite.apply` without the limit check: the applications the call
would perform were the limit never consulted. -/
def Rewrite.applyNL (r : Rewrite G) (ops : GraphOps G) (g : G)
    (ems : List SearchMatches) : List Id × G :=
  applyMatchesNL ops r.conditions r.appliers ems [] g

/-! Concrete instances used to evaluate the theorems on closed inputs. -/

/-- A concrete graph state: the list of unions performed so far. -/
abbrev CG := List (Id × Id)

/-- Concrete graph operations over `CG`: `union` records the pair and
returns its first argument as the leader. -/
def cgOps : GraphOps CG :=
  ⟨fun g a b => (a, (a, b) :: g)⟩

/-- A concrete pattern over `CG` that matches nothing and instantiates to
class 0 without touching the graph. -/
def patA : Pattern CG :=
  ⟨fun _ => [], fun g _ => (0, g)⟩

/-- A concrete applier over `CG` producing no results. -/
def appA : Applier CG :=
  fun g _ => ([], g)

/-- A concrete applier over `CG` always producing the fresh class 42. -/
def appNew : Applier CG :=
  fun g _ => ([⟨42, false⟩], g)

/-- A concrete applier over `CG` always producing class 7 (the class its
test matches originate from). -/
def appSelf : Applier CG :=
  fun g _ => ([⟨7, true⟩], g)

/-- A concrete applier over `CG` producing three classes distinct from 7. -/
def appThree : Applier CG :=
  fun g _ => ([⟨41, false⟩, ⟨42, false⟩, ⟨43, false⟩], g)

/-- The empty substitution mapping. -/
def wm0 : WildMap := ⟨[]⟩

/-- A concrete match of class 7 with two mappings. -/
def emTwo : SearchMatches := ⟨7, [wm0, wm0]⟩

/-- A concrete match of class 7 with one mapping. -/
def emOne : SearchMatches := ⟨7, [wm0]⟩

/-- A concrete unconditional rule whose sole applier yields class 42. -/
def rwNew : Rewrite CG := ⟨"c2", [patA], [appNew], [], 10000⟩

/-- A concrete unconditional rule whose sole applier yields class 7. -/
def rwSat : Rewrite CG := ⟨"sat", [patA], [appSelf], [], 10000⟩

/-- A concrete rule with application limit 1 whose applier yields three
distinct classes per invocation. -/
def rwLim : Rewrite CG := ⟨"lim", [patA], [appThree], [], 1⟩

/-- A concrete builder holding one pattern and one applier. -/
def rbOk : RewriteBuilder CG :=
  ((RewriteBuilder.new "r").with_pattern patA).with_applier appA

/-- `rbOk` with the application limit overridden to 0. -/
def rbZero : RewriteBuilder CG :=
  rbOk.with_application_limit 0

/-- The rewrite `rbZero.build` produces. -/
def rwZero : Rewrite CG := ⟨"r", [patA], [appA], [], 0⟩

/-- A concrete pattern over the counter graph `Nat`: instantiating it
returns class `k` and increments the counter (marking one
materialization). -/
def patK (k : Id) : Pattern Nat :=
  ⟨fun _ => [], fun g _ => (k, g + 1)⟩

/-- A condition over the counter graph that always passes. -/
def cPass : Condition Nat := ⟨patK 5, patK 5⟩

/-- A condition over the counter graph that always fails. -/
def cFail : Condition Nat := ⟨patK 1, patK 2⟩

/-! Theorems. -/

/-- Per-pattern search results concatenate in list order. -/
theorem searchPatterns_eq_join (ps : List (Pattern G)) (g : G) :
    searchPatterns ps g = (ps.map (fun p => p.search g)).flatten := by
  induction ps with
  | nil => rfl
  | cons p rest ih => simp [searchPatterns, ih]

/-- C7: `search` invokes the matcher once per pattern in list order and
returns the concatenation of all per-pattern results — pattern order
preserved, each pattern's internal order preserved, and no deduplication
(the flattening keeps every entry of every pattern's result list). -/
theorem search_concats_per_pattern (r : Rewrite G) (g : G) :
    Rewrite.search r g =
      (r.patterns.map (fun p => p.search g)).flatten := by
  exact searchPatterns_eq_join r.patterns g

/-- C10: `apply` on an empty sequence of search results returns an empty
list, emits no warning, and leaves the graph exactly as it was — no
condition is evaluated, no applier invoked, no union performed. -/
theorem apply_nil (r : Rewrite G) (ops : GraphOps G) (g : G) :
    Rewrite.apply r ops g [] = ([], [], g) := rfl

/-- C5: `Condition.check` instantiates `lhs` under the mapping, then `rhs`
against the graph state left by the `lhs` instantiation, returns true
exactly when the two canonical ids coincide, and the final graph state is
the one after both instantiations — both sides are materialized even when
the check returns false. -/
theorem condition_check_spec (c : Condition G) (g : G) (m : WildMap) :
    ((Condition.check c g m).1 = true ↔
      (c.lhs.substFind g m).1 =
        (c.rhs.substFind (c.lhs.substFind g m).2 m).1)
    ∧ (Condition.check c g m).2 =
        (c.rhs.substFind (c.lhs.substFind g m).2 m).2 := by
  constructor
  · simp [Condition.check]
  · rfl

/-- C3: `build` fails with the `InvalidRewrite` condition whenever zero
patterns or zero appliers were supplied, and otherwise returns the
`Rewrite` capturing exactly the accumulated name, patterns, appliers,
conditions, and limit. -/
theorem build_spec (b : RewriteBuilder G) :
    (b.patterns = [] ∨ b.appliers = [] →
      RewriteBuilder.build b = .error .invalidRewrite)
    ∧ (b.patterns ≠ [] → b.appliers ≠ [] →
      RewriteBuilder.build b =
        .ok ⟨b.name, b.patterns, b.appliers, b.conditions,
          b.application_limit⟩) := by
  constructor
  · intro h
    unfold RewriteBuilder.build
    rcases h with h | h <;> simp [h]
  · intro h1 h2
    unfold RewriteBuilder.build
    simp [List.length_eq_zero, h1, h2]

/-- Witness for C3 at concrete builders: the valid builder succeeds with
the accumulated fields, the empty builder fails. -/
theorem build_spec_witness :
    RewriteBuilder.build rbOk =
      .ok ⟨"r", [patA], [appA], [], 10000⟩
    ∧ RewriteBuilder.build (RewriteBuilder.new "e" : RewriteBuilder CG) =
      .error .invalidRewrite := by
  constructor
  · exact (build_spec rbOk).2 (by simp [rbOk, RewriteBuilder.new,
      RewriteBuilder.with_pattern, RewriteBuilder.with_applier])
      (by simp [rbOk, RewriteBuilder.new, RewriteBuilder.with_pattern,
        RewriteBuilder.with_applier])
  · exact (build_spec _).1 (Or.inl rfl)

/-- Counterexample to C4 as stated: invoking the builder's limit override
with 0 produces a built `Rewrite` whose `application_limit` is 0, which is
not positive. -/
theorem limit_not_positive_counterexample :
    RewriteBuilder.build rbZero = .ok rwZero
    ∧ ¬ 0 < rwZero.application_limit := by
  constructor
  · rfl
  · simp [rwZero]

/-- C4 amended: a fresh builder's limit is 10,000 and every builder
operation other than the override preserves it, so a build whose override
was never invoked yields `application_limit = 10000`; the override stores
the supplied value unvalidated (it may be 0), and `build` passes the
stored limit through unchanged. -/
theorem application_limit_default (nm : String) :
    ((RewriteBuilder.new nm : RewriteBuilder G).application_limit = 10000)
    ∧ (∀ (b : RewriteBuilder G) (p : Pattern G),
        (b.with_pattern p).application_limit = b.application_limit)
    ∧ (∀ (b : RewriteBuilder G) (a : Applier G),
        (b.with_applier a).application_limit = b.application_limit)
    ∧ (∀ (b : RewriteBuilder G) (c : Condition G),
        (b.with_condition c).application_limit = b.application_limit)
    ∧ (∀ (b : RewriteBuilder G) (n : Nat),
        (b.with_application_limit n).application_limit = n)
    ∧ (∀ (b : RewriteBuilder G) (r : Rewrite G),
        RewriteBuilder.build b = .ok r →
          r.application_limit = b.application_limit) := by
  refine ⟨rfl, fun _ _ => rfl, fun _ _ => rfl, fun _ _ => rfl,
    fun _ _ => rfl, fun b r h => ?_⟩
  unfold RewriteBuilder.build at h
  split at h
  · cases h
  · split at h
    · cases h
    · cases h
      rfl

/-- Witness for C4 amended: the concrete builder `rbOk`, whose override
was never invoked, builds a rewrite with limit 10,000. -/
theorem application_limit_default_witness :
    (⟨"r", [patA], [appA], [], 10000⟩ : Rewrite CG).application_limit
      = 10000 := by
  have h := (application_limit_default (G := CG) "r").2.2.2.2.2 rbOk
    ⟨"r", [patA], [appA], [], 10000⟩ rfl
  exact h.trans rfl

/-- If a prefix of the condition list all passes, checking the whole list
continues from the graph state the prefix left behind. -/
theorem checkConditions_append (cs1 cs2 : List (Condition G)) (g : G)
    (m : WildMap) (hpass : (checkConditions cs1 g m).1 = true) :
    checkConditions (cs1 ++ cs2) g m =
      checkConditions cs2 (checkConditions cs1 g m).2 m := by
  induction cs1 generalizing g with
  | nil => rfl
  | cons c rest ih =>
    by_cases hc : (Condition.check c g m).1
    · simp only [checkConditions, List.cons_append, hc, if_true]
      simp only [checkConditions, hc, if_true] at hpass
      exact ih _ hpass
    · simp only [checkConditions, hc, if_false] at hpass
      simp at hpass

/-- C6: conditions are checked in list order and the per-mapping check
short-circuits at the first failing condition — the resulting graph state
is exactly the state after the passing prefix and the failing condition
(later conditions are not evaluated, so nothing they reference is
materialized) — and a mapping whose conditions fail is skipped entirely:
processing moves to the remaining mappings with the accumulator and
warnings unchanged and the graph only carrying the condition-evaluation
effects, so no applier runs and no union happens for that mapping. -/
theorem conditions_short_circuit (cs1 : List (Condition G))
    (c : Condition G) (cs2 : List (Condition G)) (g : G) (m : WildMap)
    (hpass : (checkConditions cs1 g m).1 = true)
    (hfail : (Condition.check c (checkConditions cs1 g m).2 m).1 = false) :
    checkConditions (cs1 ++ c :: cs2) g m =
      (false, (Condition.check c (checkConditions cs1 g m).2 m).2)
    ∧ ∀ (ops : GraphOps G) (name : String) (limit : Nat) (eclass : Id)
        (appliers : List (Applier G)) (rest : List WildMap)
        (acc : List Id) (warns : List (String × Nat)),
      applyMappings ops name limit eclass (cs1 ++ c :: cs2) appliers
          (m :: rest) acc warns g
        = applyMappings ops name limit eclass (cs1 ++ c :: cs2) appliers
            rest acc warns
            (Condition.check c (checkConditions cs1 g m).2 m).2 := by
  have hmain : checkConditions (cs1 ++ c :: cs2) g m =
      (false, (Condition.check c (checkConditions cs1 g m).2 m).2) := by
    rw [checkConditions_append cs1 (c :: cs2) g m hpass]
    simp only [checkConditions, hfail, if_false]
    simp [hfail]
  refine ⟨hmain, ?_⟩
  intro ops name limit eclass appliers rest acc warns
  simp only [applyMappings, hmain]
  simp

/-- Witness for C6: a passing condition, then a failing one, then another
condition; the counter graph shows exactly four materializations (two per
evaluated condition), so the third condition was never evaluated, and the
check comes back false. -/
theorem conditions_short_circuit_witness :
    checkConditions [cPass, cFail, cPass] (0 : Nat) wm0 = (false, 4) := by
  have h := conditions_short_circuit [cPass] cFail [cPass] (0 : Nat) wm0
    rfl rfl
  exact h.1.trans rfl

/-- When every root id equals the originating class, the root loop performs
no union, appends nothing, emits no warning and leaves the graph as is. -/
theorem applyRoots_trivial (ops : GraphOps G) (name : String) (limit : Nat)
    (eclass : Id) (roots : List AddResult) (acc : List Id)
    (warns : List (String × Nat)) (g : G)
    (hroots : ∀ r ∈ roots, r.id = eclass) (hlen : acc.length ≤ limit) :
    applyRoots ops name limit eclass roots acc warns g =
      ⟨acc, warns, g, false⟩ := by
  induction roots with
  | nil => rfl
  | cons root rest ih =>
    have hr : root.id = eclass := hroots root (List.mem_cons_self root rest)
    have hnl : ¬ acc.length > limit := Nat.not_lt.mpr hlen
    simp only [applyRoots, hr, ne_eq, not_true_eq_false, if_false, hnl]
    exact ih fun r hm => hroots r (List.mem_cons_of_mem root hm)

/-- When every applier result id equals the originating class, the applier
loop leaves the accumulator, warnings and stop flag untouched. -/
theorem applyAppliers_trivial (ops : GraphOps G) (name : String)
    (limit : Nat) (eclass : Id) (appliers : List (Applier G)) (m : WildMap)
    (acc : List Id) (warns : List (String × Nat)) (g : G)
    (happ : ∀ a ∈ appliers, ∀ (g2 : G) (m2 : WildMap),
      ∀ res ∈ (a g2 m2).1, res.id = eclass)
    (hlen : acc.length ≤ limit) :
    (applyAppliers ops name limit eclass appliers m acc warns g).acc = acc
    ∧ (applyAppliers ops name limit eclass appliers m acc warns g).warns
        = warns
    ∧ (applyAppliers ops name limit eclass appliers m acc warns g).stop
        = false := by
  induction appliers generalizing g with
  | nil => exact ⟨rfl, rfl, rfl⟩
  | cons a rest ih =>
    have hr := applyRoots_trivial ops name limit eclass (a g m).1 acc warns
      (a g m).2 (fun r hm => happ a (List.mem_cons_self a rest) g m r hm)
      hlen
    simp only [applyAppliers, hr]
    exact ih (a g m).2 (fun a2 hm => happ a2 (List.mem_cons_of_mem a hm))

/-- When every applier result id equals the originating class, the mapping
loop leaves the accumulator, warnings and stop flag untouched (conditions
may still mutate the graph). -/
theorem applyMappings_trivial (ops : GraphOps G) (name : String)
    (limit : Nat) (eclass : Id) (conds : List (Condition G))
    (appliers : List (Applier G)) (maps : List WildMap) (acc : List Id)
    (warns : List (String × Nat)) (g : G)
    (happ : ∀ a ∈ appliers, ∀ (g2 : G) (m2 : WildMap),
      ∀ res ∈ (a g2 m2).1, res.id = eclass)
    (hlen : acc.length ≤ limit) :
    (applyMappings ops name limit eclass conds appliers maps acc warns
      g).acc = acc
    ∧ (applyMappings ops name limit eclass conds appliers maps acc warns
        g).warns = warns
    ∧ (applyMappings ops name limit eclass conds appliers maps acc warns
        g).stop = false := by
  induction maps generalizing g with
  | nil => exact ⟨rfl, rfl, rfl⟩
  | cons m rest ih =>
    by_cases hck : (checkConditions conds g m).1
    · have ha := applyAppliers_trivial ops name limit eclass appliers m acc
        warns (checkConditions conds g m).2 happ hlen
      simp only [applyMappings, hck, if_true, ha.2.2, Bool.false_eq_true,
        if_false, ha.1, ha.2.1]
      exact ih _
    · simp only [applyMappings, hck, Bool.false_eq_true, if_false]
      exact ih _

/-- When, for every match, every applier invocation yields only that
match's originating class id, the whole match loop changes nothing in the
accumulator or warnings and never stops early. -/
theorem applyMatches_trivial (ops : GraphOps G) (name : String)
    (limit : Nat) (conds : List (Condition G))
    (appliers : List (Applier G)) (ems : List SearchMatches)
    (acc : List Id) (warns : List (String × Nat)) (g : G)
    (hsat : ∀ em ∈ ems, ∀ a ∈ appliers, ∀ (g2 : G) (m2 : WildMap),
      ∀ res ∈ (a g2 m2).1, res.id = em.eclass)
    (hlen : acc.length ≤ limit) :
    (applyMatches ops name limit conds appliers ems acc warns g).acc = acc
    ∧ (applyMatches ops name limit conds appliers ems acc warns g).warns
        = warns
    ∧ (applyMatches ops name limit conds appliers ems acc warns g).stop
        = false := by
  induction ems generalizing g with
  | nil => exact ⟨rfl, rfl, rfl⟩
  | cons em rest ih =>
    have hm := applyMappings_trivial ops name limit em.eclass conds
      appliers em.mappings acc warns g
      (fun a ha => hsat em (List.mem_cons_self em rest) a ha) hlen
    simp only [applyMatches, hm.2.2, Bool.false_eq_true, if_false, hm.1,
      hm.2.1]
    exact ih _ (fun em2 hm2 a ha => hsat em2 (List.mem_cons_of_mem em hm2)
      a ha)

/-- C8: re-application stability — when every applier invocation returns
only ids equal to the corresponding match's originating class id (the
graph is already saturated for these matches), `apply` returns an empty
result list. -/
theorem apply_saturated_empty (r : Rewrite G) (ops : GraphOps G) (g : G)
    (ems : List SearchMatches)
    (hsat : ∀ em ∈ ems, ∀ a ∈ r.appliers, ∀ (g2 : G) (m2 : WildMap),
      ∀ res ∈ (a g2 m2).1, res.id = em.eclass) :
    (Rewrite.apply r ops g ems).1 = [] := by
  unfold Rewrite.apply
  exact (applyMatches_trivial ops r.name r.application_limit r.conditions
    r.appliers ems [] [] g hsat (Nat.zero_le _)).1

/-- Witness for C8: a rule whose applier always returns class 7 applied to
matches of class 7 yields no results. -/
theorem apply_saturated_empty_witness :
    (Rewrite.apply rwSat cgOps [] [emTwo, emTwo]).1 = [] := by
  apply apply_saturated_empty
  intro em hem a ha g2 m2 res hres
  have ha2 : a = appSelf := by simpa [rwSat] using ha
  subst ha2
  have hres2 : res = ⟨7, true⟩ := by simpa [appSelf] using hres
  subst hres2
  rcases (by simpa using hem : em = emTwo ∨ em = emTwo) with h | h <;>
    subst h <;> rfl

/-- C9: only non-trivial applications count toward the limit — when every
applier invocation returns only ids equal to its match's originating class
id, the call processes every match, mapping and applier to completion (the
early-exit flag is never set) and emits no warning, no matter how many
matches there are. -/
theorem apply_saturated_no_warning (r : Rewrite G) (ops : GraphOps G)
    (g : G) (ems : List SearchMatches)
    (hsat : ∀ em ∈ ems, ∀ a ∈ r.appliers, ∀ (g2 : G) (m2 : WildMap),
      ∀ res ∈ (a g2 m2).1, res.id = em.eclass) :
    (Rewrite.apply r ops g ems).2.1 = []
    ∧ (applyMatches ops r.name r.application_limit r.conditions r.appliers
        ems [] [] g).stop = false := by
  have h := applyMatches_trivial ops r.name r.application_limit
    r.conditions r.appliers ems [] [] g hsat (Nat.zero_le _)
  exact ⟨h.2.1, h.2.2⟩

/-- Witness for C9: the saturated rule on two matches emits no warning and
never sets the early-exit flag. -/
theorem apply_saturated_no_warning_witness :
    (Rewrite.apply rwSat cgOps [] [emTwo, emTwo]).2.1 = []
    ∧ (applyMatches cgOps rwSat.name rwSat.application_limit
        rwSat.conditions rwSat.appliers [emTwo, emTwo] [] [] []).stop
      = false := by
  apply apply_saturated_no_warning
  intro em hem a ha g2 m2 res hres
  have ha2 : a = appSelf := by simpa [rwSat] using ha
  subst ha2
  have hres2 : res = ⟨7, true⟩ := by simpa [appSelf] using hres
  subst hres2
  rcases (by simpa using hem : em = emTwo ∨ em = emTwo) with h | h <;>
    subst h <;> rfl

/-- Counterexample to C2 as stated: a single match carrying two mappings,
under an unconditional rule whose sole applier always returns the class 42
(different from the match's class 7), makes `apply` return two leader ids
for that one match — one per mapping, not one per match. -/
theorem one_per_match_counterexample :
    rwNew.conditions = [] ∧ [emTwo].length = 1
    ∧ ((Rewrite.apply rwNew cgOps [] [emTwo]).1).length = 2 := by
  exact ⟨rfl, rfl, rfl⟩

/-- An unconditional single-applier mapping loop whose applier yields
exactly one result, always distinct from the originating class, appends
exactly one leader per mapping, never warns and never stops early, as long
as the mappings fit in the remaining limit budget. -/
theorem applyMappings_onePer (ops : GraphOps G) (name : String)
    (limit : Nat) (eclass : Id) (a : Applier G) (maps : List WildMap)
    (acc : List Id) (warns : List (String × Nat)) (g : G)
    (hone : ∀ (g2 : G) (m2 : WildMap), ((a g2 m2).1).length = 1)
    (hne : ∀ (g2 : G) (m2 : WildMap), ∀ res ∈ (a g2 m2).1,
      res.id ≠ eclass)
    (hlen : acc.length + maps.length ≤ limit) :
    ((applyMappings ops name limit eclass [] [a] maps acc warns g).acc
        ).length = acc.length + maps.length
    ∧ (applyMappings ops name limit eclass [] [a] maps acc warns g).warns
        = warns
    ∧ (applyMappings ops name limit eclass [] [a] maps acc warns g).stop
        = false := by
  induction maps generalizing acc g with
  | nil => exact ⟨by simp [applyMappings], rfl, rfl⟩
  | cons m rest ih =>
    have hlen2 : acc.length + (rest.length + 1) ≤ limit := by
      simpa using hlen
    obtain ⟨x, hx⟩ := List.length_eq_one.mp (hone g m)
    have hxid : x.id ≠ eclass := hne g m x (by simp [hx])
    have hnotover : ¬ (acc ++ [(ops.union (a g m).2 eclass x.id).1]
        ).length > limit := by
      simp only [List.length_append, List.length_cons, List.length_nil]
      omega
    have hstep : applyMappings ops name limit eclass [] [a] (m :: rest)
        acc warns g
        = applyMappings ops name limit eclass [] [a] rest
            (acc ++ [(ops.union (a g m).2 eclass x.id).1]) warns
            (ops.union (a g m).2 eclass x.id).2 := by
      simp only [applyMappings, checkConditions, applyAppliers, hx,
        applyRoots, hxid, ne_eq, not_false_eq_true, if_true, hnotover,
        if_false]
      simp
    rw [hstep]
    have hrec := ih (acc ++ [(ops.union (a g m).2 eclass x.id).1])
      (ops.union (a g m).2 eclass x.id).2
      (by simp only [List.length_append, List.length_cons,
        List.length_nil]; omega)
    refine ⟨?_, hrec.2.1, hrec.2.2⟩
    rw [hrec.1]
    simp only [List.length_append, List.length_cons, List.length_nil]
    omega

/-- The match loop counterpart of `applyMappings_onePer`: one leader per
mapping across all matches. -/
theorem applyMatches_onePer (ops : GraphOps G) (name : String)
    (limit : Nat) (a : Applier G) (ems : List SearchMatches)
    (acc : List Id) (warns : List (String × Nat)) (g : G)
    (hone : ∀ (g2 : G) (m2 : WildMap), ((a g2 m2).1).length = 1)
    (hne : ∀ em ∈ ems, ∀ (g2 : G) (m2 : WildMap), ∀ res ∈ (a g2 m2).1,
      res.id ≠ em.eclass)
    (hlen : acc.length + totalMappings ems ≤ limit) :
    ((applyMatches ops name limit [] [a] ems acc warns g).acc).length
        = acc.length + totalMappings ems
    ∧ (applyMatches ops name limit [] [a] ems acc warns g).warns = warns
    ∧ (applyMatches ops name limit [] [a] ems acc warns g).stop
        = false := by
  induction ems generalizing acc g with
  | nil => exact ⟨by simp [applyMatches, totalMappings], rfl, rfl⟩
  | cons em rest ih =>
    have hems : totalMappings (em :: rest)
        = em.mappings.length + totalMappings rest := by
      simp [totalMappings]
    have hmap := applyMappings_onePer ops name limit em.eclass a
      em.mappings acc warns g hone
      (hne em (List.mem_cons_self em rest)) (by omega)
    simp only [applyMatches, hmap.2.2, Bool.false_eq_true, if_false,
      hmap.2.1]
    have hrec := ih (applyMappings ops name limit em.eclass [] [a]
        em.mappings acc warns g).acc
      (applyMappings ops name limit em.eclass [] [a] em.mappings acc
        warns g).graph
      (fun em2 hm2 => hne em2 (List.mem_cons_of_mem em hm2))
      (by rw [hmap.1]; omega)
    refine ⟨?_, hrec.2.1, hrec.2.2⟩
    rw [hrec.1, hmap.1, hems]
    omega

/-- C2 amended: each applier result id that differs from the match's
originating class produces one union whose leader is appended, and an id
equal to the originating class produces nothing; hence an unconditional
rule with a sole applier returning exactly one id per invocation, always
distinct from the originating class, yields exactly one leader id per
mapping (when the total number of mappings fits under the application
limit), while a sole applier always returning the originating class id
yields nothing at all. -/
theorem apply_one_per_mapping (r : Rewrite G) (ops : GraphOps G) (g : G)
    (ems : List SearchMatches) (a : Applier G)
    (hconds : r.conditions = []) (happ : r.appliers = [a]) :
    ((∀ (g2 : G) (m2 : WildMap), ((a g2 m2).1).length = 1) →
      (∀ em ∈ ems, ∀ (g2 : G) (m2 : WildMap), ∀ res ∈ (a g2 m2).1,
        res.id ≠ em.eclass) →
      totalMappings ems ≤ r.application_limit →
      ((Rewrite.apply r ops g ems).1).length = totalMappings ems)
    ∧ ((∀ em ∈ ems, ∀ (g2 : G) (m2 : WildMap), ∀ res ∈ (a g2 m2).1,
        res.id = em.eclass) →
      (Rewrite.apply r ops g ems).1 = []) := by
  constructor
  · intro hone hne hlim
    unfold Rewrite.apply
    rw [hconds, happ]
    have h := applyMatches_onePer ops r.name r.application_limit a ems
      [] [] g hone hne (by simpa using hlim)
    simpa using h.1
  · intro hsat
    have h := applyMatches_trivial ops r.name r.application_limit
      r.conditions r.appliers ems [] [] g
      (fun em hem a2 ha2 g2 m2 res hres => by
        rw [happ] at ha2
        have ha3 : a2 = a := by simpa using ha2
        subst ha3
        exact hsat em hem g2 m2 res hres)
      (Nat.zero_le _)
    simpa [Rewrite.apply] using h.1

/-- Witness for C2 amended, both branches: the rule producing class 42
yields one leader per mapping (two mappings, two leaders), and the rule
producing the originating class 7 yields nothing. -/
theorem apply_one_per_mapping_witness :
    ((Rewrite.apply rwNew cgOps [] [emTwo]).1).length
      = totalMappings [emTwo]
    ∧ (Rewrite.apply rwSat cgOps [] [emTwo]).1 = [] := by
  constructor
  · refine (apply_one_per_mapping rwNew cgOps [] [emTwo] appNew rfl
      rfl).1 (fun g2 m2 => rfl) ?_ (by decide)
    intro em hem g2 m2 res hres
    have hres2 : res = ⟨42, false⟩ := by simpa [appNew] using hres
    subst hres2
    have hem2 : em = emTwo := by simpa using hem
    subst hem2
    decide
  · refine (apply_one_per_mapping rwSat cgOps [] [emTwo] appSelf rfl
      rfl).2 ?_
    intro em hem g2 m2 res hres
    have hres2 : res = ⟨7, true⟩ := by simpa [appSelf] using hres
    subst hres2
    have hem2 : em = emTwo := by simpa using hem
    subst hem2
    rfl

/-- The root loop only ever appends to the accumulator. -/
theorem applyRootsNL_extends (ops : GraphOps G) (eclass : Id)
    (roots : List AddResult) (acc : List Id) (g : G) :
    ∃ ext, (applyRootsNL ops eclass roots acc g).1 = acc ++ ext := by
  induction roots generalizing acc g with
  | nil => exact ⟨[], by simp [applyRootsNL]⟩
  | cons root rest ih =>
    by_cases hroot : root.id = eclass
    · simpa [applyRootsNL, hroot] using ih acc g
    · obtain ⟨ext, hext⟩ := ih
        (acc ++ [(ops.union g eclass root.id).1])
        (ops.union g eclass root.id).2
      exact ⟨(ops.union g eclass root.id).1 :: ext,
        by simpa [applyRootsNL, hroot] using hext⟩

/-- The applier loop only ever appends to the accumulator. -/
theorem applyAppliersNL_extends (ops : GraphOps G) (eclass : Id)
    (appliers : List (Applier G)) (m : WildMap) (acc : List Id) (g : G) :
    ∃ ext, (applyAppliersNL ops eclass appliers m acc g).1
      = acc ++ ext := by
  induction appliers generalizing acc g with
  | nil => exact ⟨[], by simp [applyAppliersNL]⟩
  | cons a rest ih =>
    obtain ⟨e1, he1⟩ := applyRootsNL_extends ops eclass (a g m).1 acc
      (a g m).2
    obtain ⟨e2, he2⟩ := ih (applyRootsNL ops eclass (a g m).1 acc
      (a g m).2).1 (applyRootsNL ops eclass (a g m).1 acc (a g m).2).2
    refine ⟨e1 ++ e2, ?_⟩
    simp only [applyAppliersNL]
    rw [he2, he1, List.append_assoc]

/-- The mapping loop only ever appends to the accumulator. -/
theorem applyMappingsNL_extends (ops : GraphOps G) (eclass : Id)
    (conds : List (Condition G)) (appliers : List (Applier G))
    (maps : List WildMap) (acc : List Id) (g : G) :
    ∃ ext, (applyMappingsNL ops eclass conds appliers maps acc g).1
      = acc ++ ext := by
  induction maps generalizing acc g with
  | nil => exact ⟨[], by simp [applyMappingsNL]⟩
  | cons m rest ih =>
    by_cases hck : (checkConditions conds g m).1
    · obtain ⟨e1, he1⟩ := applyAppliersNL_extends ops eclass appliers m
        acc (checkConditions conds g m).2
      obtain ⟨e2, he2⟩ := ih (applyAppliersNL ops eclass appliers m acc
        (checkConditions conds g m).2).1
        (applyAppliersNL ops eclass appliers m acc
          (checkConditions conds g m).2).2
      refine ⟨e1 ++ e2, ?_⟩
      simp only [applyMappingsNL, hck, if_true]
      rw [he2, he1, List.append_assoc]
    · obtain ⟨ext, hext⟩ := ih acc (checkConditions conds g m).2
      exact ⟨ext, by simpa [applyMappingsNL, hck] using hext⟩

/-- The match loop only ever appends to the accumulator. -/
theorem applyMatchesNL_extends (ops : GraphOps G)
    (conds : List (Condition G)) (appliers : List (Applier G))
    (ems : List SearchMatches) (acc : List Id) (g : G) :
    ∃ ext, (applyMatchesNL ops conds appliers ems acc g).1
      = acc ++ ext := by
  induction ems generalizing acc g with
  | nil => exact ⟨[], by simp [applyMatchesNL]⟩
  | cons em rest ih =>
    obtain ⟨e1, he1⟩ := applyMappingsNL_extends ops em.eclass conds
      appliers em.mappings acc g
    obtain ⟨e2, he2⟩ := ih (applyMappingsNL ops em.eclass conds appliers
      em.mappings acc g).1
      (applyMappingsNL ops em.eclass conds appliers em.mappings acc g).2
    refine ⟨e1 ++ e2, ?_⟩
    simp only [applyMatchesNL]
    rw [he2, he1, List.append_assoc]

/-- Lockstep between the limited and unlimited root loops: as long as the
unlimited run stays within the limit the two agree and no warning fires;
the first time it would exceed the limit, the limited run stops with
exactly `limit + 1` accumulated ids (a prefix of the unlimited run's
output) and a single warning. -/
theorem applyRoots_lockstep (ops : GraphOps G) (name : String)
    (limit : Nat) (eclass : Id) (roots : List AddResult) (acc : List Id)
    (warns : List (String × Nat)) (g : G) (hlen : acc.length ≤ limit) :
    (((applyRootsNL ops eclass roots acc g).1).length ≤ limit
      ∧ applyRoots ops name limit eclass roots acc warns g
        = ⟨(applyRootsNL ops eclass roots acc g).1, warns,
            (applyRootsNL ops eclass roots acc g).2, false⟩)
    ∨ (((applyRootsNL ops eclass roots acc g).1).length > limit
      ∧ (applyRoots ops name limit eclass roots acc warns g).acc
        = ((applyRootsNL ops eclass roots acc g).1).take (limit + 1)
      ∧ (applyRoots ops name limit eclass roots acc warns g).warns
        = warns ++ [(name, limit + 1)]
      ∧ (applyRoots ops name limit eclass roots acc warns g).stop
        = true) := by
  induction roots generalizing acc g with
  | nil => exact Or.inl ⟨hlen, rfl⟩
  | cons root rest ih =>
    by_cases hroot : root.id = eclass
    · have e1 : applyRoots ops name limit eclass (root :: rest) acc warns
          g = applyRoots ops name limit eclass rest acc warns g := by
        simp only [applyRoots, hroot]
        simp [Nat.not_lt.mpr hlen]
      have e2 : applyRootsNL ops eclass (root :: rest) acc g
          = applyRootsNL ops eclass rest acc g := by
        simp [applyRootsNL, hroot]
      rw [e1, e2]
      exact ih acc g hlen
    · have e2 : applyRootsNL ops eclass (root :: rest) acc g
          = applyRootsNL ops eclass rest
              (acc ++ [(ops.union g eclass root.id).1])
              (ops.union g eclass root.id).2 := by
        simp [applyRootsNL, hroot]
      by_cases hover :
          (acc ++ [(ops.union g eclass root.id).1]).length > limit
      · have hlen1 :
            (acc ++ [(ops.union g eclass root.id).1]).length
              = limit + 1 := by
          simp only [List.length_append, List.length_cons,
            List.length_nil] at hover ⊢
          omega
        have e1 : applyRoots ops name limit eclass (root :: rest) acc
            warns g
            = ⟨acc ++ [(ops.union g eclass root.id).1],
                warns ++ [(name,
                  (acc ++ [(ops.union g eclass root.id).1]).length)],
                (ops.union g eclass root.id).2, true⟩ := by
          have hover2 : limit < acc.length + 1 := by simpa using hover
          simp [applyRoots, hroot, hover2]
        obtain ⟨ext, hext⟩ := applyRootsNL_extends ops eclass rest
          (acc ++ [(ops.union g eclass root.id).1])
          (ops.union g eclass root.id).2
        refine Or.inr ⟨?_, ?_, ?_, ?_⟩
        · rw [e2, hext]
          simp only [List.length_append, List.length_cons,
            List.length_nil] at hover ⊢
          omega
        · rw [e1, e2, hext, List.take_left' hlen1]
        · rw [e1, hlen1]
        · rw [e1]
      · have e1 : applyRoots ops name limit eclass (root :: rest) acc
            warns g
            = applyRoots ops name limit eclass rest
                (acc ++ [(ops.union g eclass root.id).1]) warns
                (ops.union g eclass root.id).2 := by
          have hnover : ¬ limit < acc.length + 1 := by simpa using hover
          simp [applyRoots, hroot, hnover]
        rw [e1, e2]
        exact ih (acc ++ [(ops.union g eclass root.id).1])
          (ops.union g eclass root.id).2 (Nat.not_lt.mp hover)

/-- Lockstep between the limited and unlimited applier loops. -/
theorem applyAppliers_lockstep (ops : GraphOps G) (name : String)
    (limit : Nat) (eclass : Id) (appliers : List (Applier G))
    (m : WildMap) (acc : List Id) (warns : List (String × Nat)) (g : G)
    (hlen : acc.length ≤ limit) :
    (((applyAppliersNL ops eclass appliers m acc g).1).length ≤ limit
      ∧ applyAppliers ops name limit eclass appliers m acc warns g
        = ⟨(applyAppliersNL ops eclass appliers m acc g).1, warns,
            (applyAppliersNL ops eclass appliers m acc g).2, false⟩)
    ∨ (((applyAppliersNL ops eclass appliers m acc g).1).length > limit
      ∧ (applyAppliers ops name limit eclass appliers m acc warns g).acc
        = ((applyAppliersNL ops eclass appliers m acc g).1).take
            (limit + 1)
      ∧ (applyAppliers ops name limit eclass appliers m acc warns
          g).warns = warns ++ [(name, limit + 1)]
      ∧ (applyAppliers ops name limit eclass appliers m acc warns g).stop
        = true) := by
  induction appliers generalizing acc g with
  | nil => exact Or.inl ⟨hlen, rfl⟩
  | cons a rest ih =>
    rcases applyRoots_lockstep ops name limit eclass (a g m).1 acc warns
      (a g m).2 hlen with ⟨hl, heq⟩ | ⟨hgt, hacc, hw, hstop⟩
    · have e1 : applyAppliers ops name limit eclass (a :: rest) m acc
          warns g
          = applyAppliers ops name limit eclass rest m
              (applyRootsNL ops eclass (a g m).1 acc (a g m).2).1 warns
              (applyRootsNL ops eclass (a g m).1 acc (a g m).2).2 := by
        simp only [applyAppliers, heq]
        simp
      have e2 : applyAppliersNL ops eclass (a :: rest) m acc g
          = applyAppliersNL ops eclass rest m
              (applyRootsNL ops eclass (a g m).1 acc (a g m).2).1
              (applyRootsNL ops eclass (a g m).1 acc (a g m).2).2 := by
        simp only [applyAppliersNL]
      rw [e1, e2]
      exact ih _ _ hl
    · have e1 : applyAppliers ops name limit eclass (a :: rest) m acc
          warns g
          = applyRoots ops name limit eclass (a g m).1 acc warns
              (a g m).2 := by
        simp only [applyAppliers]
        simp [hstop]
      obtain ⟨ext, hext⟩ := applyAppliersNL_extends ops eclass rest m
        (applyRootsNL ops eclass (a g m).1 acc (a g m).2).1
        (applyRootsNL ops eclass (a g m).1 acc (a g m).2).2
      have e2 : (applyAppliersNL ops eclass (a :: rest) m acc g).1
          = (applyRootsNL ops eclass (a g m).1 acc (a g m).2).1
            ++ ext := by
        simp only [applyAppliersNL]
        exact hext
      refine Or.inr ⟨?_, ?_, ?_, ?_⟩
      · rw [e2]
        simp only [List.length_append]
        omega
      · rw [e1, hacc, e2, List.take_append_of_le_length (by omega)]
      · rw [e1, hw]
      · rw [e1, hstop]

/-- Lockstep between the limited and unlimited mapping loops. -/
theorem applyMappings_lockstep (ops : GraphOps G) (name : String)
    (limit : Nat) (eclass : Id) (conds : List (Condition G))
    (appliers : List (Applier G)) (maps : List WildMap) (acc : List Id)
    (warns : List (String × Nat)) (g : G) (hlen : acc.length ≤ limit) :
    (((applyMappingsNL ops eclass conds appliers maps acc g).1).length
        ≤ limit
      ∧ applyMappings ops name limit eclass conds appliers maps acc warns
          g
        = ⟨(applyMappingsNL ops eclass conds appliers maps acc g).1,
            warns,
            (applyMappingsNL ops eclass conds appliers maps acc g).2,
            false⟩)
    ∨ (((applyMappingsNL ops eclass conds appliers maps acc g).1).length
        > limit
      ∧ (applyMappings ops name limit eclass conds appliers maps acc
          warns g).acc
        = ((applyMappingsNL ops eclass conds appliers maps acc g).1).take
            (limit + 1)
      ∧ (applyMappings ops name limit eclass conds appliers maps acc
          warns g).warns = warns ++ [(name, limit + 1)]
      ∧ (applyMappings ops name limit eclass conds appliers maps acc
          warns g).stop = true) := by
  induction maps generalizing acc g with
  | nil => exact Or.inl ⟨hlen, rfl⟩
  | cons m rest ih =>
    by_cases hck : (checkConditions conds g m).1
    · rcases applyAppliers_lockstep ops name limit eclass appliers m acc
        warns (checkConditions conds g m).2 hlen with
        ⟨hl, heq⟩ | ⟨hgt, hacc, hw, hstop⟩
      · have e1 : applyMappings ops name limit eclass conds appliers
            (m :: rest) acc warns g
            = applyMappings ops name limit eclass conds appliers rest
                (applyAppliersNL ops eclass appliers m acc
                  (checkConditions conds g m).2).1 warns
                (applyAppliersNL ops eclass appliers m acc
                  (checkConditions conds g m).2).2 := by
          simp only [applyMappings, hck, if_true, heq]
          simp
        have e2 : applyMappingsNL ops eclass conds appliers (m :: rest)
            acc g
            = applyMappingsNL ops eclass conds appliers rest
                (applyAppliersNL ops eclass appliers m acc
                  (checkConditions conds g m).2).1
                (applyAppliersNL ops eclass appliers m acc
                  (checkConditions conds g m).2).2 := by
          simp only [applyMappingsNL, hck, if_true]
        rw [e1, e2]
        exact ih _ _ hl
      · have e1 : applyMappings ops name limit eclass conds appliers
            (m :: rest) acc warns g
            = applyAppliers ops name limit eclass appliers m acc warns
                (checkConditions conds g m).2 := by
          simp only [applyMappings, hck, if_true]
          simp [hstop]
        obtain ⟨ext, hext⟩ := applyMappingsNL_extends ops eclass conds
          appliers rest
          (applyAppliersNL ops eclass appliers m acc
            (checkConditions conds g m).2).1
          (applyAppliersNL ops eclass appliers m acc
            (checkConditions conds g m).2).2
        have e2 : (applyMappingsNL ops eclass conds appliers (m :: rest)
            acc g).1
            = (applyAppliersNL ops eclass appliers m acc
                (checkConditions conds g m).2).1 ++ ext := by
          simp only [applyMappingsNL, hck, if_true]
          exact hext
        refine Or.inr ⟨?_, ?_, ?_, ?_⟩
        · rw [e2]
          simp only [List.length_append]
          omega
        · rw [e1, hacc, e2, List.take_append_of_le_length (by omega)]
        · rw [e1, hw]
        · rw [e1, hstop]
    · have e1 : applyMappings ops name limit eclass conds appliers
          (m :: rest) acc warns g
          = applyMappings ops name limit eclass conds appliers rest acc
              warns (checkConditions conds g m).2 := by
        simp [applyMappings, hck]
      have e2 : applyMappingsNL ops eclass conds appliers (m :: rest) acc
          g
          = applyMappingsNL ops eclass conds appliers rest acc
              (checkConditions conds g m).2 := by
        simp [applyMappingsNL, hck]
      rw [e1, e2]
      exact ih acc (checkConditions conds g m).2 hlen

/-- Lockstep between the limited and unlimited match loops. -/
theorem applyMatches_lockstep (ops : GraphOps G) (name : String)
    (limit : Nat) (conds : List (Condition G))
    (appliers : List (Applier G)) (ems : List SearchMatches)
    (acc : List Id) (warns : List (String × Nat)) (g : G)
    (hlen : acc.length ≤ limit) :
    (((applyMatchesNL ops conds appliers ems acc g).1).length ≤ limit
      ∧ applyMatches ops name limit conds appliers ems acc warns g
        = ⟨(applyMatchesNL ops conds appliers ems acc g).1, warns,
            (applyMatchesNL ops conds appliers ems acc g).2, false⟩)
    ∨ (((applyMatchesNL ops conds appliers ems acc g).1).length > limit
      ∧ (applyMatches ops name limit conds appliers ems acc warns g).acc
        = ((applyMatchesNL ops conds appliers ems acc g).1).take
            (limit + 1)
      ∧ (applyMatches ops name limit conds appliers ems acc warns
          g).warns = warns ++ [(name, limit + 1)]
      ∧ (applyMatches ops name limit conds appliers ems acc warns g).stop
        = true) := by
  induction ems generalizing acc g with
  | nil => exact Or.inl ⟨hlen, rfl⟩
  | cons em rest ih =>
    rcases applyMappings_lockstep ops name limit em.eclass conds appliers
      em.mappings acc warns g hlen with
      ⟨hl, heq⟩ | ⟨hgt, hacc, hw, hstop⟩
    · have e1 : applyMatches ops name limit conds appliers (em :: rest)
          acc warns g
          = applyMatches ops name limit conds appliers rest
              (applyMappingsNL ops em.eclass conds appliers em.mappings
                acc g).1 warns
              (applyMappingsNL ops em.eclass conds appliers em.mappings
                acc g).2 := by
        simp only [applyMatches, heq]
        simp
      have e2 : applyMatchesNL ops conds appliers (em :: rest) acc g
          = applyMatchesNL ops conds appliers rest
              (applyMappingsNL ops em.eclass conds appliers em.mappings
                acc g).1
              (applyMappingsNL ops em.eclass conds appliers em.mappings
                acc g).2 := by
        simp only [applyMatchesNL]
      rw [e1, e2]
      exact ih _ _ hl
    · have e1 : applyMatches ops name limit conds appliers (em :: rest)
          acc warns g
          = applyMappings ops name limit em.eclass conds appliers
              em.mappings acc warns g := by
        simp only [applyMatches]
        simp [hstop]
      obtain ⟨ext, hext⟩ := applyMatchesNL_extends ops conds appliers
        rest
        (applyMappingsNL ops em.eclass conds appliers em.mappings acc
          g).1
        (applyMappingsNL ops em.eclass conds appliers em.mappings acc
          g).2
      have e2 : (applyMatchesNL ops conds appliers (em :: rest) acc g).1
          = (applyMappingsNL ops em.eclass conds appliers em.mappings acc
              g).1 ++ ext := by
        simp only [applyMatchesNL]
        exact hext
      refine Or.inr ⟨?_, ?_, ?_, ?_⟩
      · rw [e2]
        simp only [List.length_append]
        omega
      · rw [e1, hacc, e2, List.take_append_of_le_length (by omega)]
      · rw [e1, hw]
      · rw [e1, hstop]

/-- C1: when an `apply` call would otherwise (with the limit check
removed) perform more than `application_limit` non-trivial applications,
it stops early: the returned list has exactly `application_limit + 1`
leader ids (the strict-greater-than check permits exactly one application
past the limit), exactly one warning naming the rule and the count is
emitted, and the returned ids are precisely the first
`application_limit + 1` ids of the unlimited run — the already-accumulated
ids are returned and nothing after the stopping point is processed. -/
theorem apply_limit_exceeded (r : Rewrite G) (ops : GraphOps G) (g : G)
    (ems : List SearchMatches)
    (hover : ((Rewrite.applyNL r ops g ems).1).length
      > r.application_limit) :
    ((Rewrite.apply r ops g ems).1).length = r.application_limit + 1
    ∧ (Rewrite.apply r ops g ems).2.1
      = [(r.name, r.application_limit + 1)]
    ∧ (Rewrite.apply r ops g ems).1
      = ((Rewrite.applyNL r ops g ems).1).take
          (r.application_limit + 1) := by
  unfold Rewrite.applyNL at hover
  rcases applyMatches_lockstep ops r.name r.application_limit
    r.conditions r.appliers ems [] [] g (Nat.zero_le _) with
    ⟨hl, _⟩ | ⟨_, hacc, hw, _⟩
  · omega
  · simp only [Rewrite.apply, Rewrite.applyNL]
    refine ⟨?_, by simpa using hw, hacc⟩
    rw [hacc, List.length_take]
    omega

/-- Witness for C1: a rule with limit 1 whose applier produces three
non-trivial results stops after two applications with a single warning. -/
theorem apply_limit_exceeded_witness :
    ((Rewrite.applyNL rwLim cgOps [] [emOne]).1).length
      > rwLim.application_limit
    ∧ ((Rewrite.apply rwLim cgOps [] [emOne]).1).length
      = rwLim.application_limit + 1
    ∧ (Rewrite.apply rwLim cgOps [] [emOne]).2.1
      = [(rwLim.name, rwLim.application_limit + 1)] := by
  have h := apply_limit_exceeded rwLim cgOps [] [emOne] (by decide)
  exact ⟨by decide, h.1, h.2.1⟩

end Egg
